import Mathlib

/-!
Verification development for `pyBLP.py` (BLP-Python): a shallow embedding of
the BLP random-coefficients demand estimator over exact rational arithmetic.

Modelling conventions:

* numpy arrays of floats become `Matrix (Fin _) (Fin _) ℚ` / `Fin _ → ℚ`;
  exact arithmetic replaces floating point.
* A float that may be NaN is `Option ℚ`, with `none` playing the role of NaN:
  arithmetic on `none` propagates `none`, matching IEEE NaN propagation, and
  `np.isnan` becomes an `Option.isNone` test.  (Infinities are not modelled;
  no claim treated here depends on them.)
* `numpy.linalg.solve`, `scipy.linalg.cho_solve` and `numpy.linalg.cholesky`
  are the external dense linear-algebra primitives.  `solve`/`cho_solve` are
  embedded by their exact-arithmetic semantics through the computable inverse
  `minv A = A.det⁻¹ • A.adjugate`; `cholesky (Z'Z)` returns a factor `L` with
  `L * Lᵀ = ZᵀZ`, which over ℚ need not exist entrywise (square roots), so the
  stored factor `LinvW` is a model field `L` and theorems carry the
  factorization contract `L * Lᵀ = ZᵀZ` as a hypothesis.
* The C extension module `_BLP` (`cal_mu`, `cal_s`, `cal_ind_choice_prob`) is
  not part of this repository's `src/`; its outputs are model parameters
  (spec-modelled), see `BLPModel.lnS` and `JacInputs.P`.
* The `while True:` loop of `cal_δ` is embedded with an explicit fuel
  argument; `CalδOut.running` means the loop is still iterating after `fuel`
  steps (the source would simply keep looping).
* Python attribute state (`self.θ`, `self.ix_θ_T`, `self.δ`, ...) becomes the
  record `BLPState`; an attribute that has never been assigned is `none`, and
  reading it raises (`Except.error`), matching Python's `AttributeError`.
-/

open Matrix

/-- A possibly-NaN float value: `none` is NaN. -/
abbrev RVal := Option ℚ

/-- A vector of possibly-NaN values (one entry per product observation). -/
abbrev RVec (J : ℕ) := Fin J → RVal

/-- Addition with NaN propagation (`δ += diff`). -/
def radd : RVal → RVal → RVal
  | some a, some b => some (a + b)
  | _, _ => none

/-- Subtraction with NaN propagation (`ln_s_jt - np.log(s)`). -/
def rsub : RVal → RVal → RVal
  | some a, some b => some (a - b)
  | _, _ => none

/-- Embeds `np.isnan(d).sum()` viewed as a Boolean: does any entry hold NaN? -/
def hasNaN {J : ℕ} (d : RVec J) : Bool :=
  decide (∃ j, d j = none)

/-- The list of absolute values `abs(d)` (NaN entries read as `0`; every use
site is guarded by a `hasNaN` check, exactly as in the source). -/
def absList {J : ℕ} (d : RVec J) : List ℚ :=
  (List.finRange J).map fun j => |(d j).getD 0|

/-- Computes `abs(diff).max()`. -/
def maxAbs {J : ℕ} (d : RVec J) : ℚ :=
  (absList d).foldr max 0

/-- Computes `abs(diff).mean()`. -/
def meanAbs {J : ℕ} (d : RVec J) : ℚ :=
  (absList d).sum / (J : ℚ)

/-- The dual convergence criterion of `cal_δ`, line 131:
`abs(diff).max() < etol and abs(diff).mean() < 1e-3`. -/
def convCrit {J : ℕ} (etol : ℚ) (d : RVec J) : Prop :=
  maxAbs d < etol ∧ meanAbs d < 1 / 1000

instance {J : ℕ} (etol : ℚ) (d : RVec J) : Decidable (convCrit etol d) :=
  inferInstanceAs (Decidable (_ ∧ _))

/-- The per-iteration log-share difference `diff = ln_s_jt - np.log(s)`,
where `f δ` stands for `np.log(s)` as a function of the current `δ`
(`s` is produced by the external `_BLP.cal_s` from `exp(δ + μ)`). -/
def diffv {J : ℕ} (f : RVec J → RVec J) (ln_s_jt : Fin J → ℚ) (δ : RVec J) : RVec J :=
  fun j => rsub (some (ln_s_jt j)) (f δ j)

/-- Outcome of the `while True:` contraction loop of `cal_δ` (lines 119-136).
`running` = still iterating when the fuel ran out (the source has no
iteration bound and would keep going); `failed` = the raised `nan in diffs` exception, carrying `δ` as it stood when the exception fired; `done` = the
loop hit `break` after `δ += diff`. -/
inductive CalδOut (J : ℕ)
  | running (δ : RVec J)
  | failed (δ : RVec J)
  | done (δ : RVec J)

/-- The contraction-mapping loop of `cal_δ` (lines 119-136), one source
iteration per unit of fuel.  `f` abstracts the composite
`np.log(_BLP.cal_s(exp(δ + μ), ...))` — Modelled from the spec: `_BLP.cal_mu`
and `_BLP.cal_s` are external C routines not in `src/`; per spec §4.1 they
compute simulated market shares from `exp(δ + μ(θ))`, and only the loop
structure around them is verified here. -/
def calδGo {J : ℕ} (f : RVec J → RVec J) (ln_s_jt : Fin J → ℚ) (etol : ℚ) :
    ℕ → RVec J → CalδOut J
  | 0, δ => .running δ
  | fuel + 1, δ =>
    let diff := diffv f ln_s_jt δ
    if hasNaN diff = true then .failed δ
    else
      let δn := fun j => radd (δ j) (diff j)
      if convCrit etol diff then .done δn
      else calδGo f ln_s_jt etol fuel δn

/-- The sequence of `δ` values produced by successive `δ += diff` updates,
ignoring exit conditions: `δiter f l δ0 n` is `δ` after `n` iterations. -/
def δiter {J : ℕ} (f : RVec J → RVec J) (ln_s_jt : Fin J → ℚ) (δ0 : RVec J) : ℕ → RVec J
  | 0 => δ0
  | n + 1 => fun j =>
    radd (δiter f ln_s_jt δ0 n j) (diffv f ln_s_jt (δiter f ln_s_jt δ0 n) j)

/-! ### Dense linear-algebra primitives (external library, exact semantics) -/

/-- Computable matrix inverse over ℚ: `det⁻¹ • adjugate` (equal to Mathlib's
`A⁻¹` over a field, see `minv_eq_inv`). -/
def minv {n : Type} [Fintype n] [DecidableEq n] (A : Matrix n n ℚ) : Matrix n n ℚ :=
  A.det⁻¹ • A.adjugate

/-- Embeds `numpy.linalg.solve(A, B)` for a matrix right-hand side. -/
def np_solve {n m : Type} [Fintype n] [DecidableEq n] (A : Matrix n n ℚ) (B : Matrix n m ℚ) :
    Matrix n m ℚ :=
  minv A * B

/-- Embeds `numpy.linalg.solve(A, b)` for a vector right-hand side. -/
def np_solve_vec {n : Type} [Fintype n] [DecidableEq n] (A : Matrix n n ℚ) (b : n → ℚ) :
    n → ℚ :=
  (minv A).mulVec b

/-- Embeds `scipy.linalg.cho_solve((L, True), B)`: solve `(L Lᵀ) X = B` given the
lower Cholesky factor `L`.  In exact arithmetic this is multiplication by
`(L Lᵀ)⁻¹`; the two triangular solves of the library are below the
abstraction level of the (excluded) linear-algebra layer. -/
def cho_solve {n m : Type} [Fintype n] [DecidableEq n] (L : Matrix n n ℚ) (B : Matrix n m ℚ) :
    Matrix n m ℚ :=
  minv (L * L.transpose) * B

/-- Embeds `scipy.linalg.cho_solve((L, True), b)` for a vector right-hand side. -/
def cho_solve_vec {n : Type} [Fintype n] [DecidableEq n] (L : Matrix n n ℚ) (b : n → ℚ) :
    n → ℚ :=
  (minv (L * L.transpose)).mulVec b

/-- Embeds `np.c_[x1, jacob]`: column concatenation, indexed by `Fin k1 ⊕ Fin p`. -/
def concatCols {J k1 p : ℕ} (A : Matrix (Fin J) (Fin k1) ℚ) (B : Matrix (Fin J) (Fin p) ℚ) :
    Matrix (Fin J) (Fin k1 ⊕ Fin p) ℚ :=
  Matrix.of fun i => Sum.elim (A i) (B i)

/-! ### The estimation driver: `BLP.__init__`, `GMM`, `gradient_GMM`, `cal_varcov` -/

/-- A candidate parameter argument `θ_cand`: either a full matrix
(`ndim == 2`) or a flattened vector over the mask positions (`ndim == 1`). -/
inductive ΘCand (r c : ℕ)
  | mat (m : Matrix (Fin r) (Fin c) ℚ)
  | vec (v : List ℚ)

/-- Embeds `np.nonzero(θ.T)`: the positions of nonzero entries of `θ.T`, in row-major
order over `θ.T` (rows of `θ.T` are columns of `θ`), as `(row of θ.T, col of
θ.T)` pairs. -/
def nonzeroT {r c : ℕ} (θ : Matrix (Fin r) (Fin c) ℚ) : List (ℕ × ℕ) :=
  (List.finRange c).flatMap fun i =>
    (List.finRange r).filterMap fun j =>
      if θ j i ≠ 0 then some (i.val, j.val) else none

/-- Assign `θ.T[p.1, p.2] = q`, i.e. `θ[p.2, p.1] = q`. -/
def setEntryT {r c : ℕ} (θ : Matrix (Fin r) (Fin c) ℚ) (p : ℕ × ℕ) (q : ℚ) :
    Matrix (Fin r) (Fin c) ℚ :=
  Matrix.of fun j i => if j.val = p.2 ∧ i.val = p.1 then q else θ j i

/-- Embeds `θ.T[ps] = vs`: fancy assignment of a flat candidate vector into the
listed positions of `θ.T` (numpy requires equal lengths; extra positions or
values are ignored here via `zip`). -/
def writeT {r c : ℕ} (θ : Matrix (Fin r) (Fin c) ℚ) (ps : List (ℕ × ℕ)) (vs : List ℚ) :
    Matrix (Fin r) (Fin c) ℚ :=
  (ps.zip vs).foldl (fun A pv => setEntryT A pv.1 pv.2) θ

/-- Assign `θ[p.1, p.2] = q` (untransposed indexing, as `θ[ix_θ]` would). -/
def setEntry {r c : ℕ} (θ : Matrix (Fin r) (Fin c) ℚ) (p : ℕ × ℕ) (q : ℚ) :
    Matrix (Fin r) (Fin c) ℚ :=
  Matrix.of fun j i => if j.val = p.1 ∧ i.val = p.2 then q else θ j i

/-- Embeds `θ[ps] = vs` with untransposed positions. -/
def writeIx {r c : ℕ} (θ : Matrix (Fin r) (Fin c) ℚ) (ps : List (ℕ × ℕ)) (vs : List ℚ) :
    Matrix (Fin r) (Fin c) ℚ :=
  (ps.zip vs).foldl (fun A pv => setEntry A pv.1 pv.2) θ

/-- The immutable problem data held by a `BLP` instance.

* `Z`, `x1`: instruments and linear characteristics (`data.Z`, `data.x1`).
* `ln_s_jt`: `np.log(data.s_jt)` — logs of positive observed shares are
  transcendental, so the logged vector itself is the model datum.
* `L`: `self.LinvW`, the output of `numpy.linalg.cholesky(Z.T @ Z)` computed
  once in `__init__`; its contract `L * Lᵀ = ZᵀZ` appears as a hypothesis of
  the theorems (over ℚ the factor cannot be computed entrywise).
* `lnS`: Modelled from the spec — for a parameter matrix `θ` and current
  `δ`, the vector `np.log(s)` of logged simulated shares produced by the
  external `_BLP.cal_mu`/`_BLP.cal_s` pipeline (spec §4.1); `none` = NaN.
* `jacobF`: Modelled from the spec — `cal_jacobian` as a function of `θ`
  at the stored `δ`; it depends on the external `_BLP.cal_ind_choice_prob`,
  and its internal per-market structure is verified separately on
  `jacBlock`/`f1` below.  `p` is its column count (one column per nonzero
  parameter). -/
structure BLPModel (J nz k1 r c p : ℕ) where
  Z : Matrix (Fin J) (Fin nz) ℚ
  x1 : Matrix (Fin J) (Fin k1) ℚ
  ln_s_jt : Fin J → ℚ
  L : Matrix (Fin nz) (Fin nz) ℚ
  lnS : Matrix (Fin r) (Fin c) ℚ → RVec J → RVec J
  jacobF : Matrix (Fin r) (Fin c) ℚ → Matrix (Fin J) (Fin p) ℚ

/-- The mutable attribute state of a `BLP` instance.

`ixθ` models the attribute `self.ix_θ` read by `gradient_GMM` (line 211):
no method of the class ever assigns it (`__init__` assigns `ix_θ_T`), so it
stays `none` and reading it raises `AttributeError`. -/
structure BLPState (J r c : ℕ) where
  θ : Option (Matrix (Fin r) (Fin c) ℚ)
  ixθT : Option (List (ℕ × ℕ))
  ixθ : Option (List (ℕ × ℕ))
  δ : RVec J
  etol : ℚ
  GMMold : ℚ
  GMMdiff : ℚ
  ξ : Option (Fin J → ℚ)
  iterLimit : ℕ

/-- The state after `__init__` (lines 58-104).  The warm-start `δ` computed
there is the IV projection of `y = log(s_jt) - log(s_0t)` (line 96); the
logs make it transcendental over ℚ, so it enters as the parameter `δ0`.
`self.θ = None`, `self.ix_θ_T = None`, `etol = 1e-6`, `iter_limit = 200`,
`GMM_old = 0`, `GMM_diff = 1`. -/
def initState (J r c : ℕ) (δ0 : RVec J) : BLPState J r c :=
  { θ := none, ixθT := none, ixθ := none, δ := δ0,
    etol := 1 / 10 ^ 6, GMMold := 0, GMMdiff := 1, ξ := none, iterLimit := 200 }

/-- Lines 142-155 of `GMM`: initialize `self.θ` from the first matrix
candidate (raising if a vector arrives first), compute `self.ix_θ_T =
np.nonzero(self.θ.T)` once, then install the candidate (full overwrite for a
matrix, masked write `self.θ.T[self.ix_θ_T] = θ_cand` for a vector).
Returns the new `θ` and the mask. -/
def GMM_setθ {r c : ℕ} (θsaved : Option (Matrix (Fin r) (Fin c) ℚ))
    (ixT : Option (List (ℕ × ℕ))) (cand : ΘCand r c) :
    Except String (Matrix (Fin r) (Fin c) ℚ × List (ℕ × ℕ)) :=
  match θsaved, cand with
  | none, .vec _ => .error "Cannot pass theta_vec before theta is initialized"
  | none, .mat m => .ok (m, ixT.getD (nonzeroT m))
  | some t, .mat m => .ok (m, ixT.getD (nonzeroT t))
  | some t, .vec v =>
    let ix := ixT.getD (nonzeroT t)
    .ok (writeT t ix v, ix)

/-- Lines 162-167 of `GMM`: the adaptive contraction tolerance chosen from
the change in successive objective values. -/
def adaptEtol (GMMdiff : ℚ) : ℚ :=
  if GMMdiff < 1 / 10 ^ 6 then 1 / 10 ^ 13
  else if GMMdiff < 1 / 10 ^ 3 then 1 / 10 ^ 12
  else 1 / 10 ^ 9

/-- Lines 178-181 of `GMM`:
`θ1 = solve(Z_x1.T @ cho_solve(LinvW, Z_x1), Z_x1.T @ cho_solve(LinvW, Z'δ))`
with `Z_x1 = Z.T @ x1` precomputed in `__init__`. -/
def GMM_θ1 {J nz k1 r c p : ℕ} (M : BLPModel J nz k1 r c p) (d : Fin J → ℚ) : Fin k1 → ℚ :=
  let Z_x1 := M.Z.transpose * M.x1
  np_solve_vec (Z_x1.transpose * cho_solve M.L Z_x1)
    (Z_x1.transpose.mulVec (cho_solve_vec M.L (M.Z.transpose.mulVec d)))

/-- The residual `ξ = δ - x1 @ θ1` (line 183). -/
def GMM_ξ {J nz k1 r c p : ℕ} (M : BLPModel J nz k1 r c p) (d : Fin J → ℚ) : Fin J → ℚ :=
  fun j => d j - M.x1.mulVec (GMM_θ1 M d) j

/-- The objective value `Z_ξ.T @ cho_solve(LinvW, Z_ξ)` (line 189). -/
def GMM_val {J nz k1 r c p : ℕ} (M : BLPModel J nz k1 r c p) (d : Fin J → ℚ) : ℚ :=
  let Zξ := M.Z.transpose.mulVec (GMM_ξ M d)
  Matrix.dotProduct Zξ (cho_solve_vec M.L Zξ)

/-- Embeds `BLP.GMM(θ_cand)` (lines 140-195), fuel-bounded.  First component:
`none` if the contraction loop is still running when the fuel runs out
(the source would not have returned); `some (.error e)` if an exception
propagates out of `GMM` (the source has no try/except); `some (.ok v)` for a
returned objective value.  Second component: the instance state after the
call, including mutations made before an exception fired (`self.θ` and
`self.δ` are updated in place). -/
def GMMfull {J nz k1 r c p : ℕ} (M : BLPModel J nz k1 r c p) (s : BLPState J r c)
    (cand : ΘCand r c) (fuel : ℕ) :
    Option (Except String ℚ) × BLPState J r c :=
  match GMM_setθ s.θ s.ixθT cand with
  | .error e => (some (.error e), s)
  | .ok (θn, ix) =>
    let etol := adaptEtol s.GMMdiff
    match calδGo (M.lnS θn) M.ln_s_jt etol fuel s.δ with
    | .running δn =>
      (none, { s with θ := some θn, ixθT := some ix, etol := etol, δ := δn })
    | .failed δn =>
      (some (.error "nan in diffs"),
       { s with θ := some θn, ixθT := some ix, etol := etol, δ := δn })
    | .done δn =>
      if hasNaN δn = true then
        (some (.ok ((10 : ℚ) ^ 10)),
         { s with θ := some θn, ixθT := some ix, etol := etol, δ := δn })
      else
        let d : Fin J → ℚ := fun j => (δn j).getD 0
        let val := GMM_val M d
        (some (.ok val),
         { s with θ := some θn, ixθT := some ix, etol := etol, δ := δn,
                  GMMdiff := |s.GMMold - val|, GMMold := val, ξ := some (GMM_ξ M d) })

/-- Embeds `BLP.gradient_GMM(θ_cand)` (lines 197-220).  Line 211 reads the
attributes `self.θ, self.ix_θ, self.ξ, self.Z, self.LinvW` in one tuple
assignment; a missing one raises `AttributeError` before anything is
mutated.  On success (which requires `ix_θ` to have been assigned) it
installs the candidate into `θ` and returns
`2 * jacob.T @ Z @ cho_solve(LinvW, Z.T) @ ξ`. -/
def gradientGMM {J nz k1 r c p : ℕ} (M : BLPModel J nz k1 r c p) (s : BLPState J r c)
    (cand : ΘCand r c) :
    Except String (Fin p → ℚ) × BLPState J r c :=
  match s.θ, s.ixθ, s.ξ with
  | some θ, some ix, some ξ =>
    let θn := match cand with
      | .vec v => writeIx θ ix v
      | .mat m => m
    let jacob := M.jacobF θn
    (.ok (fun i => 2 * (jacob.transpose * M.Z * cho_solve M.L M.Z.transpose).mulVec ξ i),
     { s with θ := some θn })
  | _, _, _ => (.error "AttributeError: attribute ix_theta was never assigned", s)

/-- Embeds `BLP.cal_varcov(θ_vec)` (lines 222-242), with the stored attributes
`θ`, `ix_θ_T`, `ξ` passed explicitly:
`θ.T[ix_θ_T] = θ_vec`; `Zres = Z * ξ[:, None]`; `Ω = Zres.T @ Zres`;
`jacob = cal_jacobian(θ)`; `G = (np.c_[x1, jacob].T @ Z).T`;
`WG = cho_solve(LinvW, G)`; `WΩ = cho_solve(LinvW, Ω)`;
`tmp = solve(G.T @ WG, G.T @ WΩ @ WG).T`; `varcov = solve(G.T @ WG, tmp)`. -/
def calVarcov {J nz k1 r c p : ℕ} (M : BLPModel J nz k1 r c p)
    (θ : Matrix (Fin r) (Fin c) ℚ) (ixT : List (ℕ × ℕ)) (ξ : Fin J → ℚ) (θvec : List ℚ) :
    Matrix (Fin k1 ⊕ Fin p) (Fin k1 ⊕ Fin p) ℚ :=
  let θn := writeT θ ixT θvec
  let Zres : Matrix (Fin J) (Fin nz) ℚ := Matrix.of fun i a => M.Z i a * ξ i
  let Ω := Zres.transpose * Zres
  let jacob := M.jacobF θn
  let G := ((concatCols M.x1 jacob).transpose * M.Z).transpose
  let WG := cho_solve M.L G
  let WΩ := cho_solve M.L Ω
  let tmp := (np_solve (G.transpose * WG) (G.transpose * WΩ * WG)).transpose
  np_solve (G.transpose * WG) tmp

/-- One optimizer interaction: an objective call (with fuel for the inner
contraction) or a gradient call. -/
inductive Call (r c : ℕ)
  | obj (cand : ΘCand r c) (fuel : ℕ)
  | grad (cand : ΘCand r c)

/-- Whether a call is an objective call carrying a flattened (vectorized)
candidate, or a gradient call. -/
def isVecCall {r c : ℕ} : Call r c → Bool
  | .obj (.vec _) _ => true
  | .obj (.mat _) _ => false
  | .grad _ => true

/-- Execute one call against the instance state. -/
def runCall {J nz k1 r c p : ℕ} (M : BLPModel J nz k1 r c p) (s : BLPState J r c) :
    Call r c → BLPState J r c
  | .obj cand fuel => (GMMfull M s cand fuel).2
  | .grad cand => (gradientGMM M s cand).2

/-- Execute a sequence of calls. -/
def runCalls {J nz k1 r c p : ℕ} (M : BLPModel J nz k1 r c p) (s : BLPState J r c) :
    List (Call r c) → BLPState J r c
  | [] => s
  | cl :: rest => runCalls M (runCall M s cl) rest

/-- The C9 invariant on the instance state, relative to the first parameter
matrix `θ0` ever passed to the objective: the stored mask `ix_θ_T` equals
(and stays equal to) the nonzero pattern of `θ0.T`, the never-assigned
`ix_θ` is still unset, and every entry of the stored parameter matrix at a
position where `θ0` is zero is still zero. -/
def MaskInv {J r c : ℕ} (θ0 : Matrix (Fin r) (Fin c) ℚ) (s : BLPState J r c) : Prop :=
  s.ixθT = some (nonzeroT θ0) ∧ s.ixθ = none ∧
    ∃ θs, s.θ = some θs ∧ ∀ (j : Fin r) (i : Fin c), θ0 j i = 0 → θs j i = 0

/-! ### `BLP.cal_jacobian` (lines 252-323): flat-array embedding

Product observations are indexed by flat row numbers `0, ..., nmkt*nbrand-1`;
market `m` owns rows `m*nbrand, ..., (m+1)*nbrand - 1`.  All flat numpy
arrays become functions `ℕ → ℕ → ℚ` applied within their bounds. -/

/-- Inputs of `cal_jacobian`: dimensions, characteristics `x2`, draws `v`,
demographics `D` (laid out per market, `nsimind` columns per block), and
`P = _BLP.cal_ind_choice_prob(exp(δ + μ), ...)` — Modelled from the spec:
the external routine returns the per-(product, consumer) choice
probabilities; it is a model input here. -/
structure JacInputs where
  nmkt : ℕ
  nbrand : ℕ
  nsimind : ℕ
  nk : ℕ
  nD : ℕ
  x2 : ℕ → ℕ → ℚ
  v : ℕ → ℕ → ℚ
  D : ℕ → ℕ → ℚ
  P : ℕ → ℕ → ℚ

/-- The array `cdid`: the market that flat row `j` belongs to (line 272). -/
def cdid (Ji : JacInputs) (j : ℕ) : ℕ := j / Ji.nbrand

/-- The array `cdindex`: the last flat row of market `i` (line 274). -/
def cdindex (Ji : JacInputs) (i : ℕ) : ℕ := Ji.nbrand * (i + 1) - 1

/-- The characteristic weight entering column `col` of `f1`: for `col < nk`
(the `∂s/∂σ` block) it is `xv = x2[:, col] * v[cdid, nsimind*col : ...]`
(lines 278-279); for `col = nk*(d+1) + k` (the `∂s/∂π` blocks) it is
`xd = x2[:, k] * D[cdid, nsimind*d : ...]` (lines 291-296). -/
def wgt (Ji : JacInputs) (col j t : ℕ) : ℚ :=
  if col < Ji.nk then Ji.x2 j col * Ji.v (cdid Ji j) (Ji.nsimind * col + t)
  else Ji.x2 j (col % Ji.nk) * Ji.D (cdid Ji j) (Ji.nsimind * (col / Ji.nk - 1) + t)

/-- Embeds `temp = (w * ind_choice_prob).cumsum(axis=0)` (lines 281, 298). -/
def cumsumPW (Ji : JacInputs) (w : ℕ → ℕ → ℚ) (j t : ℕ) : ℚ :=
  ∑ i ∈ Finset.range (j + 1), w i t * Ji.P i t

/-- Embeds `sum1 = temp[cdindex, :]` (lines 282, 299). -/
def sum1 (Ji : JacInputs) (w : ℕ → ℕ → ℚ) (i t : ℕ) : ℚ :=
  cumsumPW Ji w (cdindex Ji i) t

/-- Embeds `sum1[1:, :] = sum1[1:, :] - sum1[:-1, :]` (lines 284, 301): per-market
segment sums of `w * P`. -/
def sum1adj (Ji : JacInputs) (w : ℕ → ℕ → ℚ) (i t : ℕ) : ℚ :=
  if i = 0 then sum1 Ji w 0 t else sum1 Ji w i t - sum1 Ji w (i - 1) t

/-- The matrix `f1`, the `(∂ simulated share)/(∂ θ)` matrix (lines 269-305):
`f1[:, col] = (ind_choice_prob * (w - sum1[cdid, :])).mean(axis=1)`. -/
def f1 (Ji : JacInputs) (j col : ℕ) : ℚ :=
  (∑ t ∈ Finset.range Ji.nsimind,
      Ji.P j t * (wgt Ji col j t - sum1adj Ji (wgt Ji col) (cdid Ji j) t)) / (Ji.nsimind : ℚ)

/-- The per-market share Jacobian `H` (lines 315-317): with `temp` the
`nbrand × nsimind` block of `ind_choice_prob` for market `m`,
`H = (diag(temp.sum(axis=1)) - temp @ temp.T) / nsimind`. -/
def Hmat (Ji : JacInputs) (m : ℕ) : Matrix (Fin Ji.nbrand) (Fin Ji.nbrand) ℚ :=
  Matrix.of fun a b =>
    ((if a = b then ∑ t ∈ Finset.range Ji.nsimind, Ji.P (m * Ji.nbrand + a.val) t else 0) -
        ∑ t ∈ Finset.range Ji.nsimind,
          Ji.P (m * Ji.nbrand + a.val) t * Ji.P (m * Ji.nbrand + b.val) t) /
      (Ji.nsimind : ℚ)

/-- Embeds `rel = np.nonzero(θ.T.ravel())[0]` (line 307): the flat indices `pp` into
row-major `θ.T` with `θ.T.ravel()[pp] = θ[pp % nk, pp / nk] ≠ 0`. -/
def relList (Ji : JacInputs) (θ : ℕ → ℕ → ℚ) : List ℕ :=
  (List.range (Ji.nk * (Ji.nD + 1))).filter fun pp => decide (θ (pp % Ji.nk) (pp / Ji.nk) ≠ 0)

/-- The market-`m` rows of `f1`, restricted to the `rel` columns (the
right-hand side of the solve at line 319). -/
def f1Block (Ji : JacInputs) (θ : ℕ → ℕ → ℚ) (m : ℕ) :
    Matrix (Fin Ji.nbrand) (Fin (relList Ji θ).length) ℚ :=
  Matrix.of fun b cl => f1 Ji (m * Ji.nbrand + b.val) ((relList Ji θ).get cl)

/-- The market-`m` rows of the returned Jacobian `f` (line 319):
`f[n:cdindex[i]+1, :] = -solve(H, f1[n:cdindex[i]+1, rel])`. -/
def jacBlock (Ji : JacInputs) (θ : ℕ → ℕ → ℚ) (m : ℕ) :
    Matrix (Fin Ji.nbrand) (Fin (relList Ji θ).length) ℚ :=
  -(np_solve (Hmat Ji m) (f1Block Ji θ m))

/-! ### Spec-side formulas (for the refinement statements)

These definitions follow the wording of the specification (§4.4, §4.5): the
weighting matrix `W = (Z'Z)⁻¹` and the estimator formulas are written with
genuine matrix inverses, to be compared with the `cho_solve`/`solve`-based
computations of the source. -/

/-- Spec §4.4: `θ1 = (x1' Z W⁻¹ Z' x1)⁻¹ x1' Z W⁻¹ Z' δ` with `W = Z'Z`
(generalized least squares). -/
noncomputable def θ1Spec {J nz k1 r c p : ℕ} (M : BLPModel J nz k1 r c p) (d : Fin J → ℚ) :
    Fin k1 → ℚ :=
  ((M.x1.transpose * M.Z * (M.Z.transpose * M.Z)⁻¹ * (M.Z.transpose * M.x1))⁻¹).mulVec
    ((M.x1.transpose * M.Z * (M.Z.transpose * M.Z)⁻¹).mulVec (M.Z.transpose.mulVec d))

/-- Spec §4.4: the residual `ξ = δ - x1 · θ1`. -/
noncomputable def ξSpec {J nz k1 r c p : ℕ} (M : BLPModel J nz k1 r c p) (d : Fin J → ℚ) :
    Fin J → ℚ :=
  fun j => d j - M.x1.mulVec (θ1Spec M d) j

/-- Spec §4.4: the quadratic form `ξ' Z W⁻¹ Z' ξ` with `W = Z'Z`. -/
noncomputable def GMMSpec {J nz k1 r c p : ℕ} (M : BLPModel J nz k1 r c p) (d : Fin J → ℚ) :
    ℚ :=
  Matrix.dotProduct (ξSpec M d)
    ((M.Z * (M.Z.transpose * M.Z)⁻¹ * M.Z.transpose).mulVec (ξSpec M d))

/-- Spec §4.5: the instrument matrix scaled row-wise by the residual,
`Zres = Z * ξ[:, None]`. -/
def Zres {J nz k1 r c p : ℕ} (M : BLPModel J nz k1 r c p) (ξ : Fin J → ℚ) :
    Matrix (Fin J) (Fin nz) ℚ :=
  Matrix.of fun i a => M.Z i a * ξ i

/-- Spec §4.5: the moment covariance `Ω = Zres' Zres`. -/
def Ωmom {J nz k1 r c p : ℕ} (M : BLPModel J nz k1 r c p) (ξ : Fin J → ℚ) :
    Matrix (Fin nz) (Fin nz) ℚ :=
  (Zres M ξ).transpose * Zres M ξ

/-- Spec §4.5: the gradient-of-moments matrix `G = Z' [x1, jacob]`. -/
def Gmom {J nz k1 r c p : ℕ} (M : BLPModel J nz k1 r c p)
    (θn : Matrix (Fin r) (Fin c) ℚ) : Matrix (Fin nz) (Fin k1 ⊕ Fin p) ℚ :=
  M.Z.transpose * concatCols M.x1 (M.jacobF θn)

/-- Spec §4.5: the weighting matrix `W = (Z'Z)⁻¹`. -/
noncomputable def Wmat {J nz k1 r c p : ℕ} (M : BLPModel J nz k1 r c p) :
    Matrix (Fin nz) (Fin nz) ℚ :=
  (M.Z.transpose * M.Z)⁻¹

/-- Spec §4.5: the GMM sandwich `(G'WG)⁻¹ G'WΩWG (G'WG)⁻¹`. -/
noncomputable def sandwich {J nz k1 r c p : ℕ} (M : BLPModel J nz k1 r c p)
    (θn : Matrix (Fin r) (Fin c) ℚ) (ξ : Fin J → ℚ) :
    Matrix (Fin k1 ⊕ Fin p) (Fin k1 ⊕ Fin p) ℚ :=
  (( Gmom M θn).transpose * Wmat M * Gmom M θn)⁻¹ *
      ((Gmom M θn).transpose * Wmat M * Ωmom M ξ * Wmat M * Gmom M θn) *
    ((Gmom M θn).transpose * Wmat M * Gmom M θn)⁻¹

/-! ### Concrete instances used to exercise the theorems -/

/-- A 1 × 2 parameter matrix whose second entry is held at zero. -/
def θ0ex : Matrix (Fin 1) (Fin 2) ℚ :=
  Matrix.of fun _ i => if i = 0 then 1 else 0

/-- A tiny concrete model (one product, one instrument, one linear
characteristic, 1 × 2 parameter matrix, no Jacobian columns) whose simulated
log shares always equal the observed ones. -/
def Mex : BLPModel 1 1 1 1 2 0 :=
  { Z := 1, x1 := 1, ln_s_jt := fun _ => 0, L := 1,
    lnS := fun _ _ => fun _ => some 0, jacobF := fun _ => 0 }

/-- The same tiny model with a simulated-share pipeline that produces NaN. -/
def Mnan : BLPModel 1 1 1 1 2 0 :=
  { Mex with lnS := fun _ _ => fun _ => none }

/-- The freshly initialized state of the tiny instance. -/
def sEx : BLPState 1 1 2 := initState 1 1 2 (fun _ => some 0)

/-- The same estimation-relevant state as `sEx` but with different values in
the fields `GMM` never reads: `ix_θ`, the cached residual `ξ`, and
`iter_limit`. -/
def sEx2 : BLPState 1 1 2 :=
  { sEx with ixθ := some [], ξ := some fun _ => 5, iterLimit := 7 }

/-- Tiny `cal_jacobian` inputs: one market, one brand, one simulated
consumer, one characteristic, no demographics, choice probability 1/2. -/
abbrev Ji0 : JacInputs :=
  { nmkt := 1, nbrand := 1, nsimind := 1, nk := 1, nD := 0,
    x2 := fun _ _ => 1, v := fun _ _ => 1, D := fun _ _ => 0, P := fun _ _ => 1 / 2 }

/-- A 1 × 1 all-nonzero flat parameter matrix for the Jacobian instance. -/
def θj0 : ℕ → ℕ → ℚ := fun _ _ => 1

/-! ### Helper lemmas -/

theorem minv_eq_inv {n : Type} [Fintype n] [DecidableEq n] (A : Matrix n n ℚ) :
    minv A = A⁻¹ := by
  rw [Matrix.inv_def, Ring.inverse_eq_inv, minv]

theorem np_solve_eq {n m : Type} [Fintype n] [DecidableEq n]
    (A : Matrix n n ℚ) (B : Matrix n m ℚ) : np_solve A B = A⁻¹ * B := by
  rw [np_solve, minv_eq_inv]

theorem np_solve_vec_eq {n : Type} [Fintype n] [DecidableEq n]
    (A : Matrix n n ℚ) (b : n → ℚ) : np_solve_vec A b = A⁻¹.mulVec b := by
  rw [np_solve_vec, minv_eq_inv]

theorem cho_solve_eq {n m : Type} [Fintype n] [DecidableEq n]
    (L W : Matrix n n ℚ) (B : Matrix n m ℚ) (hL : L * L.transpose = W) :
    cho_solve L B = W⁻¹ * B := by
  rw [cho_solve, hL, minv_eq_inv]

theorem cho_solve_vec_eq {n : Type} [Fintype n] [DecidableEq n]
    (L W : Matrix n n ℚ) (b : n → ℚ) (hL : L * L.transpose = W) :
    cho_solve_vec L b = W⁻¹.mulVec b := by
  rw [cho_solve_vec, hL, minv_eq_inv]

theorem δiter_shift {J : ℕ} (f : RVec J → RVec J) (l : Fin J → ℚ) (δ0 : RVec J) (m : ℕ) :
    δiter f l (δiter f l δ0 1) m = δiter f l δ0 (m + 1) := by
  induction m with
  | zero => rfl
  | succ k ih =>
    funext j
    show radd (δiter f l (δiter f l δ0 1) k j)
        (diffv f l (δiter f l (δiter f l δ0 1) k) j) =
      radd (δiter f l δ0 (k + 1) j) (diffv f l (δiter f l δ0 (k + 1)) j)
    rw [ih]

/-- Characterization of successful loop exit of `cal_δ`: the loop returns a
converged `δ` exactly when, along the pure update sequence `δiter`, some
iteration `n` within the fuel bound first meets the dual convergence
criterion with no NaN difference on the way, and the result is the value
after the `(n+1)`-st additive update. -/
theorem calδGo_done_iff {J : ℕ} (f : RVec J → RVec J) (l : Fin J → ℚ) (etol : ℚ)
    (fuel : ℕ) : ∀ δ0 δout : RVec J,
    calδGo f l etol fuel δ0 = CalδOut.done δout ↔
      ∃ n, n < fuel ∧
        (∀ m, m ≤ n → hasNaN (diffv f l (δiter f l δ0 m)) = false) ∧
        (∀ m, m < n → ¬ convCrit etol (diffv f l (δiter f l δ0 m))) ∧
        convCrit etol (diffv f l (δiter f l δ0 n)) ∧
        δout = δiter f l δ0 (n + 1) := by
  induction fuel with
  | zero =>
    intro δ0 δout
    simp [calδGo]
  | succ fuel ih =>
    intro δ0 δout
    have hδ1 : (fun j => radd (δ0 j) (diffv f l δ0 j)) = δiter f l δ0 1 := rfl
    by_cases h1 : hasNaN (diffv f l δ0) = true
    · simp only [calδGo, h1, if_pos]
      constructor
      · intro h; exact absurd h (by simp)
      · rintro ⟨n, -, hnan, -, -, -⟩
        have h0 := hnan 0 (Nat.zero_le n)
        rw [show δiter f l δ0 0 = δ0 from rfl, h1] at h0
        exact absurd h0 (by simp)
    · have h1' : hasNaN (diffv f l δ0) = false := by simpa using h1
      by_cases h2 : convCrit etol (diffv f l δ0)
      · simp only [calδGo, h1', Bool.false_eq_true, if_false, if_pos h2]
        constructor
        · intro h
          have hout : δout = δiter f l δ0 1 := by
            rw [← hδ1]
            exact (CalδOut.done.injEq _ _ ▸ congrArg id h : _) ▸ rfl
          refine ⟨0, Nat.succ_pos _, ?_, ?_, h2, hout⟩
          · intro m hm
            rw [Nat.le_zero.mp hm]
            exact h1'
          · intro m hm
            exact absurd hm (Nat.not_lt_zero m)
        · rintro ⟨n, -, -, hconv, hcv, hout⟩
          cases n with
          | zero => rw [hout, ← hδ1]
          | succ k => exact absurd h2 (hconv 0 (Nat.succ_pos k))
      · simp only [calδGo, h1', Bool.false_eq_true, if_false, if_neg h2]
        rw [hδ1, ih (δiter f l δ0 1) δout]
        constructor
        · rintro ⟨n, hn, hnan, hconv, hcv, hout⟩
          refine ⟨n + 1, Nat.succ_lt_succ hn, ?_, ?_, ?_, ?_⟩
          · intro m hm
            cases m with
            | zero => exact h1'
            | succ k =>
              have := hnan k (Nat.succ_le_succ_iff.mp hm)
              rwa [δiter_shift] at this
          · intro m hm
            cases m with
            | zero => exact h2
            | succ k =>
              have := hconv k (Nat.succ_lt_succ_iff.mp hm)
              rwa [δiter_shift] at this
          · have := hcv
            rwa [δiter_shift] at this
          · rw [hout, δiter_shift]
        · rintro ⟨n, hn, hnan, hconv, hcv, hout⟩
          cases n with
          | zero => exact absurd hcv h2
          | succ k =>
            refine ⟨k, Nat.succ_lt_succ_iff.mp hn, ?_, ?_, ?_, ?_⟩
            · intro m hm
              rw [δiter_shift]
              exact hnan (m + 1) (Nat.succ_le_succ hm)
            · intro m hm
              rw [δiter_shift]
              exact hconv (m + 1) (Nat.succ_lt_succ hm)
            · rw [δiter_shift]; exact hcv
            · rw [δiter_shift]; exact hout

/-- C2: every iteration of the contraction mapping `cal_δ` adds the
per-product difference `ln(observed share) - ln(simulated share)` to the
current `δ` vector, and the loop exits in the converged state exactly when
the maximum absolute difference is below the current tolerance `etol` AND
the mean absolute difference is below the looser secondary threshold
`1e-3`. -/
theorem cal_delta_step_and_exit {J : ℕ} (f : RVec J → RVec J) (l : Fin J → ℚ) (etol : ℚ)
    (δ0 : RVec J) (fuel : ℕ) (δout : RVec J) :
    (∀ m, δiter f l δ0 (m + 1) =
        fun j => radd (δiter f l δ0 m j) (diffv f l (δiter f l δ0 m) j)) ∧
      (calδGo f l etol fuel δ0 = CalδOut.done δout ↔
        ∃ n, n < fuel ∧
          (∀ m, m ≤ n → hasNaN (diffv f l (δiter f l δ0 m)) = false) ∧
          (∀ m, m < n → ¬ (maxAbs (diffv f l (δiter f l δ0 m)) < etol ∧
              meanAbs (diffv f l (δiter f l δ0 m)) < 1 / 1000)) ∧
          (maxAbs (diffv f l (δiter f l δ0 n)) < etol ∧
            meanAbs (diffv f l (δiter f l δ0 n)) < 1 / 1000) ∧
          δout = δiter f l δ0 (n + 1)) :=
  ⟨fun _ => rfl, calδGo_done_iff f l etol fuel δ0 δout⟩

/-- A matrix candidate always passes the θ-installation phase, installing
exactly the passed matrix (either branch of lines 142-147 followed by the
full overwrite at line 155). -/
theorem GMM_setθ_mat {r c : ℕ} (θsaved : Option (Matrix (Fin r) (Fin c) ℚ))
    (ixT : Option (List (ℕ × ℕ))) (θm : Matrix (Fin r) (Fin c) ℚ) :
    ∃ ix, GMM_setθ θsaved ixT (ΘCand.mat θm) = .ok (θm, ix) := by
  cases θsaved <;> exact ⟨_, rfl⟩

/-- The `cho_solve`-based GLS estimate of lines 180-181 computes the spec
formula `(x1' Z W⁻¹ Z' x1)⁻¹ x1' Z W⁻¹ Z' δ`, `W = Z'Z`, whenever the stored
factor satisfies the Cholesky contract `L Lᵀ = ZᵀZ`. -/
theorem GMM_θ1_spec {J nz k1 r c p : ℕ} (M : BLPModel J nz k1 r c p) (d : Fin J → ℚ)
    (hL : M.L * M.L.transpose = M.Z.transpose * M.Z) :
    GMM_θ1 M d = θ1Spec M d := by
  rw [GMM_θ1, θ1Spec, np_solve_vec_eq, cho_solve_eq M.L _ _ hL, cho_solve_vec_eq M.L _ _ hL,
    Matrix.transpose_mul, Matrix.transpose_transpose]
  simp only [Matrix.mulVec_mulVec, Matrix.mul_assoc]

/-- The residual of line 183 equals the spec residual under the Cholesky
contract. -/
theorem GMM_ξ_spec {J nz k1 r c p : ℕ} (M : BLPModel J nz k1 r c p) (d : Fin J → ℚ)
    (hL : M.L * M.L.transpose = M.Z.transpose * M.Z) :
    GMM_ξ M d = ξSpec M d := by
  funext j
  rw [GMM_ξ, ξSpec, GMM_θ1_spec M d hL]

/-- The objective value of line 189 equals the spec quadratic form
`ξ' Z W⁻¹ Z' ξ` under the Cholesky contract. -/
theorem GMM_val_spec {J nz k1 r c p : ℕ} (M : BLPModel J nz k1 r c p) (d : Fin J → ℚ)
    (hL : M.L * M.L.transpose = M.Z.transpose * M.Z) :
    GMM_val M d = GMMSpec M d := by
  rw [GMM_val, GMMSpec, cho_solve_vec_eq M.L _ _ hL, GMM_ξ_spec M d hL]
  conv_rhs => rw [Matrix.mul_assoc, ← Matrix.mulVec_mulVec, ← Matrix.mulVec_mulVec,
    Matrix.dotProduct_mulVec, ← Matrix.mulVec_transpose]

/-- C1: for every candidate parameter matrix `θ` for which the contraction
mapping returns a finite `δ`, `GMM(θ)` returns the scalar `ξ' Z W⁻¹ Z' ξ`,
where `W = Z'Z`, `θ1 = (x1' Z W⁻¹ Z' x1)⁻¹ x1' Z W⁻¹ Z' δ` (generalized
least squares) and `ξ = δ - x1·θ1`; every application of `W⁻¹` in the code
is a `cho_solve` against the Cholesky factor `L` of `Z'Z` stored at
initialization (hypothesis `hL` is that factor's contract) rather than an
explicit inverse. -/
theorem GMM_objective_value {J nz k1 r c p : ℕ} (M : BLPModel J nz k1 r c p)
    (s : BLPState J r c) (θm : Matrix (Fin r) (Fin c) ℚ) (fuel : ℕ) (δf : RVec J)
    (hL : M.L * M.L.transpose = M.Z.transpose * M.Z)
    (hδ : calδGo (M.lnS θm) M.ln_s_jt (adaptEtol s.GMMdiff) fuel s.δ = CalδOut.done δf)
    (hfin : hasNaN δf = false) :
    (GMMfull M s (ΘCand.mat θm) fuel).1 =
      some (Except.ok (GMMSpec M (fun j => (δf j).getD 0))) := by
  obtain ⟨ix, hset⟩ := GMM_setθ_mat s.θ s.ixθT θm
  have hstep : (GMMfull M s (ΘCand.mat θm) fuel).1 =
      some (Except.ok (GMM_val M (fun j => (δf j).getD 0))) := by
    simp only [GMMfull, hset, hδ, hfin, Bool.false_eq_true, if_false]
  rw [hstep, GMM_val_spec _ _ hL]

/-- Witness for C1 at the tiny concrete instance: all hypotheses hold and
the conclusion is delivered by the theorem. -/
theorem GMM_objective_value_witness :
    (Mex.L * Mex.L.transpose = Mex.Z.transpose * Mex.Z) ∧
      (calδGo (Mex.lnS θ0ex) Mex.ln_s_jt
          (adaptEtol (initState 1 1 2 (fun _ => some 0)).GMMdiff) 1
          (initState 1 1 2 (fun _ => some 0)).δ =
        CalδOut.done (fun _ => radd (some 0) (rsub (some 0) (some 0)))) ∧
      (hasNaN (J := 1) (fun _ => radd (some 0) (rsub (some 0) (some 0))) = false) ∧
      (GMMfull Mex (initState 1 1 2 (fun _ => some 0)) (ΘCand.mat θ0ex) 1).1 =
        some (Except.ok (GMMSpec Mex
          (fun j => ((fun _ : Fin 1 => radd (some 0) (rsub (some 0) (some 0))) j).getD 0))) := by
  have hL : Mex.L * Mex.L.transpose = Mex.Z.transpose * Mex.Z := by
    show (1 : Matrix (Fin 1) (Fin 1) ℚ) * (1 : Matrix (Fin 1) (Fin 1) ℚ).transpose =
      (1 : Matrix (Fin 1) (Fin 1) ℚ).transpose * 1
    rw [Matrix.transpose_one]
  have h1 : hasNaN (diffv (Mex.lnS θ0ex) Mex.ln_s_jt (fun _ => some 0)) = false := by decide
  have hae : adaptEtol (1 : ℚ) = 1 / 10 ^ 9 := by norm_num [adaptEtol]
  have hfr : List.finRange 1 = [0] := by decide
  have hconv : convCrit (adaptEtol (1 : ℚ))
      (diffv (Mex.lnS θ0ex) Mex.ln_s_jt (fun _ => some 0)) := by
    rw [hae]
    constructor
    · show maxAbs _ < _
      norm_num [maxAbs, absList, hfr, diffv, rsub, Mex]
    · show meanAbs _ < _
      norm_num [meanAbs, absList, hfr, diffv, rsub, Mex]
  have hδ : calδGo (Mex.lnS θ0ex) Mex.ln_s_jt
      (adaptEtol (initState 1 1 2 (fun _ => some 0)).GMMdiff) 1
      (initState 1 1 2 (fun _ => some 0)).δ =
      CalδOut.done (fun _ => radd (some 0) (rsub (some 0) (some 0))) := by
    show calδGo (Mex.lnS θ0ex) Mex.ln_s_jt (adaptEtol 1) 1 (fun _ => some 0) = _
    simp only [calδGo, h1, Bool.false_eq_true, if_false]
    rw [if_pos hconv]
    rfl
  have hfin : hasNaN (J := 1) (fun _ => radd (some 0) (rsub (some 0) (some 0))) = false := by
    decide
  exact ⟨hL, hδ, hfin, GMM_objective_value Mex _ θ0ex 1 _ hL hδ hfin⟩

/-- C3 counterexample: with a simulated-share pipeline that produces a NaN
log-share difference, `GMM` does NOT return the sentinel `1e+10`; the
the `nan in diffs` exception raised by `cal_δ` (line 127) propagates out of
`GMM`, which has no try/except, so the evaluation errors out. -/
theorem GMM_nan_crash_cex :
    (GMMfull Mnan (initState 1 1 2 (fun _ => some 0)) (ΘCand.mat θ0ex) 5).1 =
      some (Except.error "nan in diffs") := rfl

/-- C3 (amended): if any per-product log-share difference computed during
the contraction is NaN, `cal_δ` raises its `nan in diffs` exception and the
exception propagates out of `GMM` uncaught — the evaluation errors instead
of returning the `1e+10` sentinel — so the non-finite values never reach
the subsequent linear algebra (`θ1`, `ξ`, quadratic form); the `isnan(δ)`
sentinel branch of `GMM` (lines 172-173) is not reached on this path. -/
theorem GMM_nan_raises {J nz k1 r c p : ℕ} (M : BLPModel J nz k1 r c p) (s : BLPState J r c)
    (θm : Matrix (Fin r) (Fin c) ℚ) (fuel : ℕ) (δbad : RVec J)
    (hfail : calδGo (M.lnS θm) M.ln_s_jt (adaptEtol s.GMMdiff) fuel s.δ =
      CalδOut.failed δbad) :
    (GMMfull M s (ΘCand.mat θm) fuel).1 = some (Except.error "nan in diffs") := by
  obtain ⟨ix, hset⟩ := GMM_setθ_mat s.θ s.ixθT θm
  simp only [GMMfull, hset, hfail]

/-- Witness for the amended C3 at the NaN instance. -/
theorem GMM_nan_raises_witness :
    (calδGo (Mnan.lnS θ0ex) Mnan.ln_s_jt
        (adaptEtol (initState 1 1 2 (fun _ => some 0)).GMMdiff) 1
        (initState 1 1 2 (fun _ => some 0)).δ = CalδOut.failed (fun _ => some 0)) ∧
      (GMMfull Mnan (initState 1 1 2 (fun _ => some 0)) (ΘCand.mat θ0ex) 1).1 =
        some (Except.error "nan in diffs") := by
  have hfail : calδGo (Mnan.lnS θ0ex) Mnan.ln_s_jt
      (adaptEtol (initState 1 1 2 (fun _ => some 0)).GMMdiff) 1
      (initState 1 1 2 (fun _ => some 0)).δ = CalδOut.failed (fun _ => some 0) := rfl
  exact ⟨hfail, GMM_nan_raises Mnan _ θ0ex 1 _ hfail⟩

/-- No mutator of the class ever assigns `self.ix_θ`: `GMM` leaves it
untouched. -/
theorem GMMfull_ixθ {J nz k1 r c p : ℕ} (M : BLPModel J nz k1 r c p) (s : BLPState J r c)
    (cand : ΘCand r c) (fuel : ℕ) : ((GMMfull M s cand fuel).2).ixθ = s.ixθ := by
  simp only [GMMfull]
  split
  · rfl
  · split
    · rfl
    · rfl
    · split <;> rfl

/-- The method `gradient_GMM` leaves `self.ix_θ` untouched as well (on its only
reachable path it raises before mutating anything). -/
theorem gradientGMM_ixθ {J nz k1 r c p : ℕ} (M : BLPModel J nz k1 r c p) (s : BLPState J r c)
    (cand : ΘCand r c) : ((gradientGMM M s cand).2).ixθ = s.ixθ := by
  rcases hθ : s.θ with _ | θv <;> rcases hι : s.ixθ with _ | ixv <;>
    rcases hξ : s.ξ with _ | ξv <;> simp only [gradientGMM, hθ, hι, hξ]

/-- Along any call sequence the attribute `self.ix_θ` keeps its value. -/
theorem runCalls_ixθ {J nz k1 r c p : ℕ} (M : BLPModel J nz k1 r c p)
    (calls : List (Call r c)) : ∀ s : BLPState J r c,
    (runCalls M s calls).ixθ = s.ixθ := by
  induction calls with
  | nil => intro s; rfl
  | cons cl rest ih =>
    intro s
    show (runCalls M (runCall M s cl) rest).ixθ = s.ixθ
    rw [ih]
    cases cl with
    | obj cand fuel => exact GMMfull_ixθ M s cand fuel
    | grad cand => exact gradientGMM_ixθ M s cand

/-- C4 (the code at its failing input): on any state reachable from
`__init__` by objective/gradient calls — in particular right after a
successful objective evaluation — `gradient_GMM` raises `AttributeError`
at line 211, because `self.ix_θ` is never assigned anywhere in the class
(`__init__` assigns `ix_θ_T`); it never returns the gradient
`2 · J' Z W⁻¹ Z' ξ`. -/
theorem gradient_GMM_attribute_error {J nz k1 r c p : ℕ} (M : BLPModel J nz k1 r c p)
    (δ0 : RVec J) (calls : List (Call r c)) (cand : ΘCand r c) :
    (gradientGMM M (runCalls M (initState J r c δ0) calls) cand).1 =
      Except.error "AttributeError: attribute ix_theta was never assigned" := by
  have h0 : (runCalls M (initState J r c δ0) calls).ixθ = none := by
    rw [runCalls_ixθ]; rfl
  rcases hθ : (runCalls M (initState J r c δ0) calls).θ with _ | θv <;>
    rcases hξ : (runCalls M (initState J r c δ0) calls).ξ with _ | ξv <;>
      simp only [gradientGMM, hθ, h0, hξ]

/-- C8: the GMM objective is deterministic.  Two evaluations of `GMM` on the
identical parameter candidate, with the identical simulated draws (the same
model `M`, including the share pipeline) and identical estimation state
(stored `δ`, tolerance, previous objective value, parameter matrix and
mask) yield the identical objective outcome — even if the two states differ
in every other attribute (`ix_θ`, cached `ξ`, `iter_limit`). -/
theorem GMM_deterministic {J nz k1 r c p : ℕ} (M : BLPModel J nz k1 r c p)
    (s1 s2 : BLPState J r c) (cand : ΘCand r c) (fuel : ℕ)
    (hθ : s1.θ = s2.θ) (hix : s1.ixθT = s2.ixθT) (hδ : s1.δ = s2.δ)
    (hetol : s1.etol = s2.etol) (hold : s1.GMMold = s2.GMMold)
    (hdiff : s1.GMMdiff = s2.GMMdiff) :
    (GMMfull M s1 cand fuel).1 = (GMMfull M s2 cand fuel).1 := by
  cases s1 with | mk θ1 ixT1 ixo1 δ1 e1 o1 d1 ξ1 il1 =>
  cases s2 with | mk θ2 ixT2 ixo2 δ2 e2 o2 d2 ξ2 il2 =>
  dsimp only at hθ hix hδ hetol hold hdiff
  subst hθ hix hδ hetol hold hdiff
  simp only [GMMfull]
  split
  · rfl
  · split
    · rfl
    · rfl
    · split <;> rfl

/-- Witness for C8: the two concrete states agree on the estimation-relevant
fields, differ in `ix_θ`, `ξ` and `iter_limit`, and produce equal objective
outcomes. -/
theorem GMM_deterministic_witness :
    (sEx.θ = sEx2.θ ∧ sEx.ixθT = sEx2.ixθT ∧ sEx.δ = sEx2.δ ∧ sEx.etol = sEx2.etol ∧
        sEx.GMMold = sEx2.GMMold ∧ sEx.GMMdiff = sEx2.GMMdiff ∧
        sEx.iterLimit ≠ sEx2.iterLimit) ∧
      (GMMfull Mex sEx (ΘCand.mat θ0ex) 1).1 = (GMMfull Mex sEx2 (ΘCand.mat θ0ex) 1).1 := by
  refine ⟨⟨rfl, rfl, rfl, rfl, rfl, rfl, by decide⟩, ?_⟩
  exact GMM_deterministic Mex sEx sEx2 (ΘCand.mat θ0ex) 1 rfl rfl rfl rfl rfl rfl

/-- C10: the contraction-mapping loop of `cal_δ` has no iteration ceiling.
(i) There is a (non-contracting) share pipeline on which the loop never
exits, whatever the fuel: with a constant unit log-share difference the
loop is still `running` after any number of iterations.  (ii) `iter_limit`
is set to `200` at initialization.  (iii, iv) Neither `GMM` (which runs the
loop) nor `gradient_GMM` ever consults `iter_limit`: their outcomes are
unchanged under an arbitrary `iter_limit`, which is carried through
untouched. -/
theorem cal_delta_no_iteration_ceiling :
    (∀ fuel : ℕ, ∃ δ : RVec 1,
        calδGo (fun _ => fun _ => some 0) (fun _ => 1) (1 / 10 ^ 9) fuel (fun _ => some 0) =
          CalδOut.running δ) ∧
      (∀ (J r c : ℕ) (δ0 : RVec J), (initState J r c δ0).iterLimit = 200) ∧
      (∀ (J nz k1 r c p : ℕ) (M : BLPModel J nz k1 r c p) (s : BLPState J r c)
          (cand : ΘCand r c) (fuel n : ℕ),
        GMMfull M { s with iterLimit := n } cand fuel =
          ((GMMfull M s cand fuel).1, { (GMMfull M s cand fuel).2 with iterLimit := n })) ∧
      (∀ (J nz k1 r c p : ℕ) (M : BLPModel J nz k1 r c p) (s : BLPState J r c)
          (cand : ΘCand r c) (n : ℕ),
        gradientGMM M { s with iterLimit := n } cand =
          ((gradientGMM M s cand).1, { (gradientGMM M s cand).2 with iterLimit := n })) := by
  refine ⟨?_, fun J r c δ0 => rfl, ?_, ?_⟩
  · have key : ∀ (fuel : ℕ) (δ : RVec 1), ∃ δ',
        calδGo (fun _ => fun _ => some 0) (fun _ => 1) (1 / 10 ^ 9) fuel δ =
          CalδOut.running δ' := by
      intro fuel
      induction fuel with
      | zero => intro δ; exact ⟨δ, rfl⟩
      | succ k ih =>
        intro δ
        have h1 : hasNaN (diffv (fun _ => fun _ => some (0 : ℚ)) (fun _ => (1 : ℚ)) δ) =
            false := by simp [hasNaN, diffv, rsub]
        have h2 : ¬ convCrit (1 / 10 ^ 9 : ℚ)
            (diffv (fun _ => fun _ => some (0 : ℚ)) (fun _ => (1 : ℚ)) δ) := by
          intro h
          have hm := h.2
          have hfr : List.finRange 1 = [0] := by decide
          rw [meanAbs, absList, hfr] at hm
          norm_num [diffv, rsub] at hm
        simp only [calδGo, h1, Bool.false_eq_true, if_false, if_neg h2]
        exact ih _
    exact fun fuel => key fuel _
  · intro J nz k1 r c p M s cand fuel n
    cases s with | mk θf ixTf ixof δf ef onf df ξf ilf =>
    simp only [GMMfull]
    split
    · rfl
    · split
      · rfl
      · rfl
      · split <;> rfl
  · intro J nz k1 r c p M s cand n
    cases s with | mk θf ixTf ixof δf ef onf df ξf ilf =>
    cases θf <;> cases ixof <;> cases ξf <;> rfl

/-- Every position in `np.nonzero(θ.T)` comes from a nonzero entry of `θ`. -/
theorem nonzeroT_mem {r c : ℕ} (θ : Matrix (Fin r) (Fin c) ℚ) (q : ℕ × ℕ)
    (hq : q ∈ nonzeroT θ) :
    ∃ (i : Fin c) (j : Fin r), q = (i.val, j.val) ∧ θ j i ≠ 0 := by
  rw [nonzeroT, List.mem_flatMap] at hq
  obtain ⟨i, -, hq⟩ := hq
  rw [List.mem_filterMap] at hq
  obtain ⟨j, -, hj⟩ := hq
  by_cases hz : θ j i ≠ 0
  · rw [if_pos hz] at hj
    exact ⟨i, j, (Option.some.inj hj).symm, hz⟩
  · rw [if_neg hz] at hj
    exact Option.noConfusion hj

/-- The fancy assignment `θ.T[ps] = vs` does not touch an entry whose
`θ.T`-position is listed nowhere in `ps`. -/
theorem writeT_preserves {r c : ℕ} (ps : List (ℕ × ℕ)) :
    ∀ (vs : List ℚ) (θ : Matrix (Fin r) (Fin c) ℚ) (j : Fin r) (i : Fin c),
      (∀ q ∈ ps, ¬(j.val = q.2 ∧ i.val = q.1)) → writeT θ ps vs j i = θ j i := by
  induction ps with
  | nil => intro vs θ j i _; rfl
  | cons q rest ih =>
    intro vs θ j i h
    cases vs with
    | nil => rfl
    | cons v vrest =>
      show writeT (setEntryT θ q v) rest vrest j i = θ j i
      rw [ih vrest _ j i (fun q' hq' => h q' (List.mem_cons_of_mem q hq'))]
      show (if j.val = q.2 ∧ i.val = q.1 then v else θ j i) = θ j i
      rw [if_neg (h q (List.mem_cons_self q rest))]

/-- A vectorized objective call writes the candidate into the stored matrix
through the stored mask and leaves the mask itself unchanged. -/
theorem GMMfull_vec_state {J nz k1 r c p : ℕ} (M : BLPModel J nz k1 r c p)
    (s : BLPState J r c) (v : List ℚ) (fuel : ℕ) (θs : Matrix (Fin r) (Fin c) ℚ)
    (ix : List (ℕ × ℕ)) (hθ : s.θ = some θs) (hix : s.ixθT = some ix) :
    ((GMMfull M s (ΘCand.vec v) fuel).2).θ = some (writeT θs ix v) ∧
      ((GMMfull M s (ΘCand.vec v) fuel).2).ixθT = some ix := by
  have hset : GMM_setθ s.θ s.ixθT (ΘCand.vec v) = .ok (writeT θs ix v, ix) := by
    rw [hθ, hix]; rfl
  simp only [GMMfull, hset]
  constructor <;>
  · split
    · rfl
    · rfl
    · split <;> rfl

/-- The first objective call with a matrix installs that matrix and computes
the mask from it (lines 142-155 starting from the `__init__` state). -/
theorem GMMfull_mat_init {J nz k1 r c p : ℕ} (M : BLPModel J nz k1 r c p) (δ0 : RVec J)
    (θ0 : Matrix (Fin r) (Fin c) ℚ) (fuel : ℕ) :
    ((GMMfull M (initState J r c δ0) (ΘCand.mat θ0) fuel).2).θ = some θ0 ∧
      ((GMMfull M (initState J r c δ0) (ΘCand.mat θ0) fuel).2).ixθT =
        some (nonzeroT θ0) := by
  have hset : GMM_setθ (initState J r c δ0).θ (initState J r c δ0).ixθT (ΘCand.mat θ0) =
      .ok (θ0, nonzeroT θ0) := rfl
  simp only [GMMfull, hset]
  constructor <;>
  · split
    · rfl
    · rfl
    · split <;> rfl

/-- A gradient call with `ix_θ` unset raises before mutating anything. -/
theorem gradientGMM_noop {J nz k1 r c p : ℕ} (M : BLPModel J nz k1 r c p)
    (s : BLPState J r c) (cand : ΘCand r c) (h : s.ixθ = none) :
    (gradientGMM M s cand).2 = s := by
  rcases hθ : s.θ with _ | θv <;> rcases hξ : s.ξ with _ | ξv <;>
    simp only [gradientGMM, hθ, h, hξ]

/-- C9: the sparsity mask is established once, from the nonzero pattern of
the first parameter matrix passed to the objective, and never recomputed;
every subsequent vectorized objective call writes the flattened candidate
only into the mask positions, and gradient calls mutate nothing, so
parameter entries held at zero by the mask remain zero across all later
objective and gradient evaluations. -/
theorem theta_mask_invariant {J nz k1 r c p : ℕ} (M : BLPModel J nz k1 r c p)
    (δ0 : RVec J) (θ0 : Matrix (Fin r) (Fin c) ℚ) (fuel0 : ℕ) (calls : List (Call r c))
    (hvec : calls.all isVecCall = true) :
    MaskInv θ0
      (runCalls M ((GMMfull M (initState J r c δ0) (ΘCand.mat θ0) fuel0).2) calls) := by
  have hstep : ∀ (s : BLPState J r c) (cl : Call r c), isVecCall cl = true →
      MaskInv θ0 s → MaskInv θ0 (runCall M s cl) := by
    intro s cl hcl hinv
    obtain ⟨hixT, hixo, θs, hθ, hzero⟩ := hinv
    cases cl with
    | grad cand =>
      show MaskInv θ0 (gradientGMM M s cand).2
      rw [gradientGMM_noop M s cand hixo]
      exact ⟨hixT, hixo, θs, hθ, hzero⟩
    | obj cand fuel =>
      cases cand with
      | mat m => exact absurd hcl (by simp [isVecCall])
      | vec v =>
        obtain ⟨hθ', hixT'⟩ := GMMfull_vec_state M s v fuel θs (nonzeroT θ0) hθ hixT
        refine ⟨hixT', ?_, writeT θs (nonzeroT θ0) v, hθ', ?_⟩
        · show ((GMMfull M s (ΘCand.vec v) fuel).2).ixθ = none
          rw [GMMfull_ixθ, hixo]
        · intro j i hz
          have hguard : ∀ q ∈ nonzeroT θ0, ¬(j.val = q.2 ∧ i.val = q.1) := by
            intro q hq hcontra
            obtain ⟨i', j', rfl, hne⟩ := nonzeroT_mem θ0 q hq
            obtain ⟨h2, h1⟩ := hcontra
            exact hne (by
              rw [show j' = j from Fin.val_injective h2.symm,
                show i' = i from Fin.val_injective h1.symm]
              exact hz)
          show writeT θs (nonzeroT θ0) v j i = 0
          rw [writeT_preserves (nonzeroT θ0) v θs j i hguard]
          exact hzero j i hz
  have hbase : MaskInv θ0 ((GMMfull M (initState J r c δ0) (ΘCand.mat θ0) fuel0).2) := by
    obtain ⟨hθ', hixT'⟩ := GMMfull_mat_init M δ0 θ0 fuel0
    refine ⟨hixT', ?_, θ0, hθ', fun j i hz => hz⟩
    rw [GMMfull_ixθ]; rfl
  have hrun : ∀ (cs : List (Call r c)) (s : BLPState J r c),
      (∀ cl ∈ cs, isVecCall cl = true) → MaskInv θ0 s → MaskInv θ0 (runCalls M s cs) := by
    intro cs
    induction cs with
    | nil => intro s _ h; exact h
    | cons cl rest ih =>
      intro s hall hinv
      show MaskInv θ0 (runCalls M (runCall M s cl) rest)
      exact ih _ (fun x hx => hall x (List.mem_cons_of_mem cl hx))
        (hstep s cl (hall cl (List.mem_cons_self cl rest)) hinv)
  exact hrun calls _ (by simpa [List.all_eq_true] using hvec) hbase

/-- Witness for C9: a first matrix call with a zero entry, then a vectorized
objective call and a gradient call; the mask and the zero entry survive. -/
theorem theta_mask_invariant_witness :
    (([Call.obj (ΘCand.vec [5]) 1, Call.grad (ΘCand.vec [7])] : List (Call 1 2)).all
        isVecCall = true) ∧
      MaskInv θ0ex (runCalls Mex
        ((GMMfull Mex (initState 1 1 2 (fun _ => some 0)) (ΘCand.mat θ0ex) 1).2)
        [Call.obj (ΘCand.vec [5]) 1, Call.grad (ΘCand.vec [7])]) :=
  ⟨rfl, theta_mask_invariant Mex _ θ0ex 1 _ rfl⟩

/-- C5: for each market independently, `cal_jacobian` forms
`H = (diag(rowsums P) - P Pᵀ)/nsimind` from that market's per-consumer
choice-probability block, solves the dense system `H · X = -F1` restricted
to that market's rows, and retains exactly the columns indexed by the
nonzero parameter-mask positions `rel = nonzero(θ.T.ravel())` (one column
per estimated nonlinear parameter). -/
theorem cal_jacobian_market_solve (Ji : JacInputs) (θ : ℕ → ℕ → ℚ) (m : ℕ)
    (hH : IsUnit (Hmat Ji m).det) :
    Hmat Ji m * jacBlock Ji θ m = -(f1Block Ji θ m) ∧
      ∀ q : ℕ, q ∈ relList Ji θ ↔
        q < Ji.nk * (Ji.nD + 1) ∧ θ (q % Ji.nk) (q / Ji.nk) ≠ 0 := by
  constructor
  · rw [jacBlock, np_solve, minv_eq_inv, Matrix.mul_neg, ← Matrix.mul_assoc,
      Matrix.mul_nonsing_inv _ hH, Matrix.one_mul]
  · intro q
    simp [relList, List.mem_filter, List.mem_range]

/-- Witness for C5 at the one-market, one-brand instance (`H = 1/4`). -/
theorem cal_jacobian_market_solve_witness :
    IsUnit (Hmat Ji0 0).det ∧
      Hmat Ji0 0 * jacBlock Ji0 θj0 0 = -(f1Block Ji0 θj0 0) := by
  have hdet : (Hmat Ji0 0).det = 1 / 4 := by
    rw [Matrix.det_fin_one (Hmat Ji0 0)]
    norm_num [Hmat, Ji0, Finset.sum_range_succ]
  have hH : IsUnit (Hmat Ji0 0).det := by
    rw [hdet]
    exact isUnit_iff_ne_zero.mpr (by norm_num)
  exact ⟨hH, (cal_jacobian_market_solve Ji0 θj0 0 hH).1⟩

/-- The pure sandwich algebra: with a symmetric weighting matrix and a
symmetric moment covariance, the two `solve`-and-transpose steps of
`cal_varcov` produce `(G'WG)⁻¹ G'WΩWG (G'WG)⁻¹`. -/
theorem sandwich_algebra {n m : Type} [Fintype n] [DecidableEq n] [Fintype m] [DecidableEq m]
    (G : Matrix n m ℚ) (W Ω : Matrix n n ℚ) (hW : W.transpose = W) (hΩ : Ω.transpose = Ω) :
    (G.transpose * (W * G))⁻¹ *
        ((G.transpose * (W * G))⁻¹ * (G.transpose * (W * Ω) * (W * G))).transpose =
      (G.transpose * W * G)⁻¹ * (G.transpose * W * Ω * W * G) * (G.transpose * W * G)⁻¹ := by
  have hA : (G.transpose * (W * G)).transpose = G.transpose * (W * G) := by
    simp only [Matrix.transpose_mul, Matrix.transpose_transpose, hW, Matrix.mul_assoc]
  have hN : (G.transpose * (W * Ω) * (W * G)).transpose =
      G.transpose * (W * Ω) * (W * G) := by
    simp only [Matrix.transpose_mul, Matrix.transpose_transpose, hW, hΩ, Matrix.mul_assoc]
  rw [Matrix.transpose_mul, Matrix.transpose_nonsing_inv, hA, hN]
  simp only [Matrix.mul_assoc]

/-- The method `cal_varcov` computes the spec sandwich under the Cholesky contract. -/
theorem calVarcov_eq_sandwich {J nz k1 r c p : ℕ} (M : BLPModel J nz k1 r c p)
    (θ : Matrix (Fin r) (Fin c) ℚ) (ixT : List (ℕ × ℕ)) (ξ : Fin J → ℚ) (θvec : List ℚ)
    (hL : M.L * M.L.transpose = M.Z.transpose * M.Z) :
    calVarcov M θ ixT ξ θvec = sandwich M (writeT θ ixT θvec) ξ := by
  have hW : ((M.Z.transpose * M.Z)⁻¹).transpose = (M.Z.transpose * M.Z)⁻¹ := by
    rw [Matrix.transpose_nonsing_inv, Matrix.transpose_mul, Matrix.transpose_transpose]
  have hΩ : ((Zres M ξ).transpose * Zres M ξ).transpose =
      (Zres M ξ).transpose * Zres M ξ := by
    rw [Matrix.transpose_mul, Matrix.transpose_transpose]
  simp only [calVarcov, sandwich, Gmom, Ωmom, Wmat, Zres]
  rw [cho_solve_eq M.L _ _ hL, cho_solve_eq M.L _ _ hL, np_solve_eq, np_solve_eq,
    Matrix.transpose_mul, Matrix.transpose_transpose]
  exact sandwich_algebra _ _ _ hW hΩ

/-- C6: given the final parameter vector, `cal_varcov` returns the GMM
sandwich `(G'WG)⁻¹ G'WΩWG (G'WG)⁻¹`, where `Ω = Zres'Zres` is built from
the instrument-weighted residual, `G = Z'[x1, jacob]` concatenates the
linear-parameter regressors with the Jacobian, and each application of
`W = (Z'Z)⁻¹` in the code is a factorized (`cho_solve`) solve against the
stored Cholesky factor (hypothesis `hL`) rather than an explicit inverse. -/
theorem cal_varcov_sandwich {J nz k1 r c p : ℕ} (M : BLPModel J nz k1 r c p)
    (θ : Matrix (Fin r) (Fin c) ℚ) (ixT : List (ℕ × ℕ)) (ξ : Fin J → ℚ) (θvec : List ℚ)
    (hL : M.L * M.L.transpose = M.Z.transpose * M.Z) :
    calVarcov M θ ixT ξ θvec = sandwich M (writeT θ ixT θvec) ξ :=
  calVarcov_eq_sandwich M θ ixT ξ θvec hL

/-- The Cholesky contract holds at the tiny instance (`L = Z = 1`). -/
theorem Mex_cholesky : Mex.L * Mex.L.transpose = Mex.Z.transpose * Mex.Z := by
  show (1 : Matrix (Fin 1) (Fin 1) ℚ) * (1 : Matrix (Fin 1) (Fin 1) ℚ).transpose =
    (1 : Matrix (Fin 1) (Fin 1) ℚ).transpose * 1
  rw [Matrix.transpose_one]

/-- Witness for C6 at the tiny instance. -/
theorem cal_varcov_sandwich_witness :
    (Mex.L * Mex.L.transpose = Mex.Z.transpose * Mex.Z) ∧
      calVarcov Mex θ0ex (nonzeroT θ0ex) (fun _ => 1) [] =
        sandwich Mex (writeT θ0ex (nonzeroT θ0ex) []) (fun _ => 1) :=
  ⟨Mex_cholesky, cal_varcov_sandwich Mex θ0ex (nonzeroT θ0ex) (fun _ => 1) [] Mex_cholesky⟩

/-- C7: on every input on which `cal_varcov` runs (with the Cholesky
contract for the stored factor), the returned variance-covariance matrix
equals its own transpose and is positive semi-definite in exact
arithmetic: `x' V x ≥ 0` for every vector `x`. -/
theorem cal_varcov_symm_psd {J nz k1 r c p : ℕ} (M : BLPModel J nz k1 r c p)
    (θ : Matrix (Fin r) (Fin c) ℚ) (ixT : List (ℕ × ℕ)) (ξ : Fin J → ℚ) (θvec : List ℚ)
    (hL : M.L * M.L.transpose = M.Z.transpose * M.Z) :
    (calVarcov M θ ixT ξ θvec).transpose = calVarcov M θ ixT ξ θvec ∧
      ∀ x : Fin k1 ⊕ Fin p → ℚ,
        0 ≤ Matrix.dotProduct x ((calVarcov M θ ixT ξ θvec).mulVec x) := by
  have hWs : (Wmat M).transpose = Wmat M := by
    rw [Wmat, Matrix.transpose_nonsing_inv, Matrix.transpose_mul, Matrix.transpose_transpose]
  have hAs : (((Gmom M (writeT θ ixT θvec)).transpose *
      (Wmat M * Gmom M (writeT θ ixT θvec)))⁻¹).transpose =
      ((Gmom M (writeT θ ixT θvec)).transpose * (Wmat M * Gmom M (writeT θ ixT θvec)))⁻¹ := by
    rw [Matrix.transpose_nonsing_inv]
    congr 1
    simp only [Matrix.transpose_mul, Matrix.transpose_transpose, hWs, Matrix.mul_assoc]
  have hCC : sandwich M (writeT θ ixT θvec) ξ =
      (Zres M ξ * Wmat M * Gmom M (writeT θ ixT θvec) *
          ((Gmom M (writeT θ ixT θvec)).transpose * Wmat M *
            Gmom M (writeT θ ixT θvec))⁻¹).transpose *
        (Zres M ξ * Wmat M * Gmom M (writeT θ ixT θvec) *
          ((Gmom M (writeT θ ixT θvec)).transpose * Wmat M *
            Gmom M (writeT θ ixT θvec))⁻¹) := by
    rw [sandwich, Ωmom]
    simp only [Matrix.transpose_mul, Matrix.transpose_transpose, hWs, hAs, Matrix.mul_assoc]
  constructor
  · rw [calVarcov_eq_sandwich M θ ixT ξ θvec hL, hCC, Matrix.transpose_mul,
      Matrix.transpose_transpose]
  · intro x
    rw [calVarcov_eq_sandwich M θ ixT ξ θvec hL, hCC, ← Matrix.mulVec_mulVec,
      Matrix.dotProduct_mulVec, Matrix.vecMul_transpose]
    exact Finset.sum_nonneg fun i _ => mul_self_nonneg _

/-- Witness for C7 at the tiny instance. -/
theorem cal_varcov_symm_psd_witness :
    (Mex.L * Mex.L.transpose = Mex.Z.transpose * Mex.Z) ∧
      ((calVarcov Mex θ0ex (nonzeroT θ0ex) (fun _ => 1) []).transpose =
          calVarcov Mex θ0ex (nonzeroT θ0ex) (fun _ => 1) [] ∧
        ∀ x : Fin 1 ⊕ Fin 0 → ℚ,
          0 ≤ Matrix.dotProduct x
            ((calVarcov Mex θ0ex (nonzeroT θ0ex) (fun _ => 1) []).mulVec x)) :=
  ⟨Mex_cholesky, cal_varcov_symm_psd Mex θ0ex (nonzeroT θ0ex) (fun _ => 1) [] Mex_cholesky⟩
